import Mathlib

/-!
Verification of the `itree` interval-tree library (augmented red-black tree).

The Go source is parameterised by an abstract `Point` comparator providing a
strict weak order; every concrete adapter shipped with the library (Int, Uint,
Float without NaN, String, Bytes) is a total order, and the tree keeps at most
one representative per equivalence class, so we model points by a linearly
ordered type `P`.  Go's helpers then become: `equal x y = !(x<y || y<x)`,
i.e. `x = y`, and `lessOrEqual x y = !y.Less(x)`, i.e. `x ≤ y`.

Pointer-based nodes with parent links are modelled by an inductive tree
together with an explicit zipper (`Entry` list): rebalancing and deletion,
which in Go walk parent pointers, become functions on the focused subtree and
its path of ancestors.  Every function below is a transcription of the
corresponding Go function from `tree.go` / `point.go` / `interval.go`.
-/

namespace ITree

/-- Interval is a half-open interval `[Left, Right)` (interval.go). -/
structure Interval (P : Type) where
  Left : P
  Right : P
deriving DecidableEq, Repr

variable {P : Type} [LinearOrder P] {V : Type}

/-- Interval.empty: `lessOrEqual(iv.Right, iv.Left)` (interval.go). -/
def Interval.empty (iv : Interval P) : Prop := iv.Right ≤ iv.Left

instance (iv : Interval P) : Decidable iv.empty :=
  inferInstanceAs (Decidable (_ ≤ _))

/-- Interval.Less: lexicographic comparison of endpoints (interval.go).  The Go
code returns true if `Left < than.Left`, false if `than.Left < Left`, and
otherwise compares the right endpoints; under a linear order "neither endpoint
less" is equality. -/
def Interval.Less (iv than : Interval P) : Prop :=
  iv.Left < than.Left ∨ (iv.Left = than.Left ∧ iv.Right < than.Right)

instance (a b : Interval P) : Decidable (a.Less b) :=
  inferInstanceAs (Decidable (_ ∨ _))

/-- Interval.Equal: componentwise point equality (interval.go). -/
def Interval.Equal (iv that : Interval P) : Prop :=
  iv.Left = that.Left ∧ iv.Right = that.Right

/-- Interval.ContainsPoint (interval.go). -/
def Interval.ContainsPoint (iv : Interval P) (x : P) : Prop :=
  x < iv.Right ∧ iv.Left ≤ x

instance (iv : Interval P) (x : P) : Decidable (iv.ContainsPoint x) :=
  inferInstanceAs (Decidable (_ ∧ _))

/-- Interval.ContainsInterval (interval.go). -/
def Interval.ContainsInterval (iv other : Interval P) : Prop :=
  iv.Left ≤ other.Left ∧ other.Right ≤ iv.Right

instance (iv other : Interval P) : Decidable (iv.ContainsInterval other) :=
  inferInstanceAs (Decidable (_ ∧ _))

/-- Interval.Overlaps (interval.go). -/
def Interval.Overlaps (iv with_ : Interval P) : Prop :=
  ¬ (with_.Right ≤ iv.Left ∨ iv.Right ≤ with_.Left)

instance (iv w : Interval P) : Decidable (iv.Overlaps w) :=
  inferInstanceAs (Decidable (¬ _))

/-- A node of the tree (point.go `Node`): colour bit (`red = true`), stored
interval, cached `maxRight`, payload, and the two children.  Parent links are
represented by the zipper below. -/
inductive RBTree (P V : Type) where
  | nil : RBTree P V
  | node (red : Bool) (iv : Interval P) (mr : P) (v : V)
      (l : RBTree P V) (r : RBTree P V) : RBTree P V
deriving Repr, DecidableEq

namespace RBTree

/-- Node.black: a nil node or a node with `red == false` (point.go). -/
def blackN : RBTree P V → Bool
  | nil => true
  | node red _ _ _ _ _ => !red

/-- Whether the root node of this subtree is red (nil counts as black). -/
def redN (t : RBTree P V) : Bool := !t.blackN

/-- Repaint the root node black, as in `n.red = false`. -/
def setBlack : RBTree P V → RBTree P V
  | nil => nil
  | node _ iv mr v l r => node false iv mr v l r

/-- Repaint the root node red, as in `n.red = true`. -/
def setRed : RBTree P V → RBTree P V
  | nil => nil
  | node _ iv mr v l r => node true iv mr v l r

end RBTree

/-- One step of `acc.Less(x) → acc = x`, the update pattern used by all
maxRight computations in the Go code. -/
def bump (acc x : P) : P := if acc < x then x else acc

/-- Fold a child subtree's cached maxRight into an accumulator: the Go pattern
`if child != nil && acc.Less(child.maxRight) { acc = child.maxRight }`. -/
def bumpT (acc : P) : RBTree P V → P
  | .nil => acc
  | .node _ _ mr _ _ _ => bump acc mr

/-- rotateLeft (tree.go): the right child takes the pivot's slot; the pivot's
maxRight is recomputed from its key and its new children, and the new subtree
root's maxRight is bumped by the pivot's.  Only defined on the shapes on which
Go calls it (right child present); other shapes are returned unchanged. -/
def rotateLeftT : RBTree P V → RBTree P V
  | .node mc miv _ mv ml (.node nc niv nmr nv y nr) =>
    let mmr := bumpT (bumpT miv.Right ml) y
    .node nc niv (bump nmr mmr) nv (.node mc miv mmr mv ml y) nr
  | t => t

/-- rotateRight (tree.go), the mirror of rotateLeft. -/
def rotateRightT : RBTree P V → RBTree P V
  | .node nc niv _ nv (.node mc miv mmr mv ml y) nr =>
    let nmr := bumpT (bumpT niv.Right y) nr
    .node mc miv (bump mmr nmr) mv ml (.node nc niv nmr nv y nr)
  | t => t

/-- One ancestor on the path from a focused subtree to the root: the parent
node's colour, key, cached maxRight and payload, whether the focus hangs off
the parent's left link (`sLeft`), and the sibling subtree. -/
structure Entry (P V : Type) where
  sLeft : Bool
  red : Bool
  iv : Interval P
  mr : P
  v : V
  sib : RBTree P V
deriving Repr, DecidableEq

/-- Rebuild the parent node from a focused child and its path entry. -/
def plug1 (t : RBTree P V) (e : Entry P V) : RBTree P V :=
  if e.sLeft then .node e.red e.iv e.mr e.v t e.sib
  else .node e.red e.iv e.mr e.v e.sib t

/-- Rebuild the whole tree from a focused subtree and its ancestor path
(innermost entry first). -/
def plugT (t : RBTree P V) : List (Entry P V) → RBTree P V
  | [] => t
  | e :: rest => plugT (plug1 t e) rest

/-- rebalanceRed (tree.go): red-red fixup after insertion, operating on the
freshly inserted or recoloured red node (the focus) and its ancestor path.
When the auncle is red the violation is repainted upward; when it is black the
grandparent subtree is straightened and rotated, using the maxRight-repairing
rotations. -/
def rebalanceRed : RBTree P V → List (Entry P V) → RBTree P V
  | n, path =>
    if n.blackN then plugT n path
    else match path with
    | [] => plugT n.setBlack []
    | [pe] =>
      -- a red parent is never the root, so this case is unreachable in Go
      plugT n [pe]
    | pe :: pg :: rest =>
      if !pe.red then plugT n (pe :: pg :: rest)
      else
        let auncle := pg.sib
        if auncle.redN then
          -- red auncle: repaint parent and auncle black, grandparent red,
          -- and recurse on the grandparent
          let parent := plug1 n (Entry.mk pe.sLeft false pe.iv pe.mr pe.v pe.sib)
          let grand := plug1 parent (Entry.mk pg.sLeft true pg.iv pg.mr pg.v auncle.setBlack)
          rebalanceRed grand rest
        else
          -- black auncle: zig-zag straightening, recolour, and rotate the
          -- grandparent away from the focus side
          let parent0 := plug1 n pe
          if pg.sLeft then
            let parent1 := if pe.sLeft then parent0 else rotateLeftT parent0
            let grand := RBTree.node true pg.iv pg.mr pg.v parent1.setBlack pg.sib
            plugT (rotateRightT grand) rest
          else
            let parent1 := if pe.sLeft then rotateRightT parent0 else parent0
            let grand := RBTree.node true pg.iv pg.mr pg.v pg.sib parent1.setBlack
            plugT (rotateLeftT grand) rest

/-- replaceOrInsert (point.go): descend from the focus comparing the new
interval with the node keys, bumping each visited node's maxRight by the new
right endpoint before recursing; on an equal key overwrite the payload, else
attach a red leaf and run the red-red fixup.  Returns the prior payload (if
present) and the new whole tree; the caller adjusts the length. -/
def replOrIns : RBTree P V → List (Entry P V) → Interval P → V →
    Option V × RBTree P V
  | .nil, path, iv, val =>
    -- Go never calls replaceOrInsert on a nil node (nil children are handled
    -- by the parent); unreachable
    (none, plugT (.node true iv iv.Right val .nil .nil) path)
  | .node c niv mr nv l r, path, iv, val =>
    let mr1 := bump mr iv.Right
    if niv.Less iv then
      match r with
      | .nil =>
        let leaf : RBTree P V := .node true iv iv.Right val .nil .nil
        (none, rebalanceRed leaf (Entry.mk false c niv mr1 nv l :: path))
      | .node rc riv rmr rv rl rr =>
        replOrIns (.node rc riv rmr rv rl rr)
          (Entry.mk false c niv mr1 nv l :: path) iv val
    else if iv.Less niv then
      match l with
      | .nil =>
        let leaf : RBTree P V := .node true iv iv.Right val .nil .nil
        (none, rebalanceRed leaf (Entry.mk true c niv mr1 nv r :: path))
      | .node lc liv lmr lv ll lr =>
        replOrIns (.node lc liv lmr lv ll lr)
          (Entry.mk true c niv mr1 nv r :: path) iv val
    else
      (some nv, plugT (.node c niv mr1 val l r) path)

/-- The tree container `T` (tree.go): root and cached length (a Go `int`). -/
structure Tr (P V : Type) where
  root : RBTree P V
  length : Int

/-- The zero value of `T`: an empty tree. -/
def emptyTr : Tr P V := ⟨.nil, 0⟩

/-- Len (tree.go). -/
def Tr.Len (t : Tr P V) : Int := t.length

/-- ReplaceOrInsert (tree.go): rejects an empty interval, creates a black root
in an empty tree, and otherwise delegates to the node-level descent.  The
error value models Go's `panic("empty interval")`. -/
def Tr.ReplaceOrInsert (t : Tr P V) (interval : Interval P) (value : V) :
    Except String (Option V × Bool × Tr P V) :=
  if interval.empty then .error "empty interval"
  else if t.length = 0 then
    .ok (none, false, ⟨.node false interval interval.Right value .nil .nil, 1⟩)
  else
    match replOrIns t.root [] interval value with
    | (some prev, root1) => .ok (some prev, true, ⟨root1, t.length⟩)
    | (none, root1) => .ok (none, false, ⟨root1, t.length + 1⟩)

/-- GetNode's descent loop (tree.go): returns the key and payload of the node
whose interval is equal to the query, if any. -/
def getNodeAux : RBTree P V → Interval P → Option (Interval P × V)
  | .nil, _ => none
  | .node _ niv _ nv l r, iv =>
    if iv.Less niv then getNodeAux l iv
    else if niv.Less iv then getNodeAux r iv
    else some (niv, nv)

/-- GetNode (tree.go): rejects an empty interval, then descends. -/
def Tr.GetNode (t : Tr P V) (iv : Interval P) :
    Except String (Option (Interval P × V)) :=
  if iv.empty then .error "empty interval" else .ok (getNodeAux t.root iv)

/-- Get (tree.go): the value and a presence flag, via GetNode. -/
def Tr.Get (t : Tr P V) (iv : Interval P) : Except String (Option V × Bool) :=
  if iv.empty then .error "empty interval"
  else match getNodeAux t.root iv with
    | none => .ok (none, false)
    | some (_, v) => .ok (some v, true)

/-- GetMin's descent loop (tree.go): follow left links, remembering the last
node visited. -/
def getMinAux : RBTree P V → Option (Interval P × V) → Option (Interval P × V)
  | .nil, cand => cand
  | .node _ niv _ nv l _, _ => getMinAux l (some (niv, nv))

/-- GetMin (tree.go). -/
def Tr.GetMin (t : Tr P V) : Option (Interval P × V) := getMinAux t.root none

/-- GetMax's descent loop (tree.go): follow right links. -/
def getMaxAux : RBTree P V → Option (Interval P × V) → Option (Interval P × V)
  | .nil, cand => cand
  | .node _ niv _ nv _ r, _ => getMaxAux r (some (niv, nv))

/-- GetMax (tree.go). -/
def Tr.GetMax (t : Tr P V) : Option (Interval P × V) := getMaxAux t.root none

/-- GetLess's descent loop (tree.go): on a key less than the query remember it
and go right, otherwise go left. -/
def getLessAux : RBTree P V → Option (Interval P × V) → Interval P →
    Option (Interval P × V)
  | .nil, cand, _ => cand
  | .node _ niv _ nv l r, cand, iv =>
    if niv.Less iv then getLessAux r (some (niv, nv)) iv
    else getLessAux l cand iv

/-- GetLess (tree.go). -/
def Tr.GetLess (t : Tr P V) (iv : Interval P) :
    Except String (Option (Interval P × V)) :=
  if iv.empty then .error "empty interval" else .ok (getLessAux t.root none iv)

/-- GetLessEqual's descent loop (tree.go): on a key not greater than the query
remember it and go right, otherwise go left. -/
def getLessEqualAux : RBTree P V → Option (Interval P × V) → Interval P →
    Option (Interval P × V)
  | .nil, cand, _ => cand
  | .node _ niv _ nv l r, cand, iv =>
    if iv.Less niv then getLessEqualAux l cand iv
    else getLessEqualAux r (some (niv, nv)) iv

/-- GetLessEqual (tree.go). -/
def Tr.GetLessEqual (t : Tr P V) (iv : Interval P) :
    Except String (Option (Interval P × V)) :=
  if iv.empty then .error "empty interval"
  else .ok (getLessEqualAux t.root none iv)

/-- GetGreater's descent loop (tree.go). -/
def getGreaterAux : RBTree P V → Option (Interval P × V) → Interval P →
    Option (Interval P × V)
  | .nil, cand, _ => cand
  | .node _ niv _ nv l r, cand, iv =>
    if iv.Less niv then getGreaterAux l (some (niv, nv)) iv
    else getGreaterAux r cand iv

/-- GetGreater (tree.go). -/
def Tr.GetGreater (t : Tr P V) (iv : Interval P) :
    Except String (Option (Interval P × V)) :=
  if iv.empty then .error "empty interval"
  else .ok (getGreaterAux t.root none iv)

/-- GetGreaterEqual's descent loop (tree.go). -/
def getGreaterEqualAux : RBTree P V → Option (Interval P × V) → Interval P →
    Option (Interval P × V)
  | .nil, cand, _ => cand
  | .node _ niv _ nv l r, cand, iv =>
    if niv.Less iv then getGreaterEqualAux r cand iv
    else getGreaterEqualAux l (some (niv, nv)) iv

/-- GetGreaterEqual (tree.go). -/
def Tr.GetGreaterEqual (t : Tr P V) (iv : Interval P) :
    Except String (Option (Interval P × V)) :=
  if iv.empty then .error "empty interval"
  else .ok (getGreaterEqualAux t.root none iv)

/-- nodesContainingPoint (point.go): in-order visit pruned by the cached
maxRight; the right subtree is visited only when the node's left endpoint is
not greater than the point. -/
def nodesContainingPointAux : RBTree P V → List (Interval P × V) → P →
    List (Interval P × V)
  | .nil, list, _ => list
  | .node _ niv mr nv l r, list, p =>
    if mr ≤ p then list
    else
      let list1 := nodesContainingPointAux l list p
      if niv.Left ≤ p then
        let list2 := if p < niv.Right then list1 ++ [(niv, nv)] else list1
        nodesContainingPointAux r list2 p
      else list1

/-- NodesContainingPoint (tree.go). -/
def Tr.NodesContainingPoint (t : Tr P V) (p : P) : List (Interval P × V) :=
  nodesContainingPointAux t.root [] p

/-- nodesContainingInterval (point.go). -/
def nodesContainingIntervalAux : RBTree P V → List (Interval P × V) →
    Interval P → List (Interval P × V)
  | .nil, list, _ => list
  | .node _ niv mr nv l r, list, iv =>
    if mr < iv.Right then list
    else
      let list1 := nodesContainingIntervalAux l list iv
      if niv.Left ≤ iv.Left then
        let list2 := if iv.Right ≤ niv.Right then list1 ++ [(niv, nv)] else list1
        nodesContainingIntervalAux r list2 iv
      else list1

/-- NodesContainingInterval (tree.go). -/
def Tr.NodesContainingInterval (t : Tr P V) (iv : Interval P) :
    Except String (List (Interval P × V)) :=
  if iv.empty then .error "empty interval"
  else .ok (nodesContainingIntervalAux t.root [] iv)

/-- nodesContainedInInterval (point.go). -/
def nodesContainedInIntervalAux : RBTree P V → List (Interval P × V) →
    Interval P → List (Interval P × V)
  | .nil, list, _ => list
  | .node _ niv mr nv l r, list, iv =>
    if mr ≤ iv.Left then list
    else
      let list1 :=
        if iv.Left ≤ niv.Left then
          let list0 := nodesContainedInIntervalAux l list iv
          if niv.Right ≤ iv.Right then list0 ++ [(niv, nv)] else list0
        else list
      nodesContainedInIntervalAux r list1 iv

/-- NodesContainedInInterval (tree.go). -/
def Tr.NodesContainedInInterval (t : Tr P V) (iv : Interval P) :
    Except String (List (Interval P × V)) :=
  if iv.empty then .error "empty interval"
  else .ok (nodesContainedInIntervalAux t.root [] iv)

/-- nodesOverlappingInterval (point.go): note that the left subtree is visited
only under the guard `iv.Left < niv.Right` on the node's own right endpoint. -/
def nodesOverlappingIntervalAux : RBTree P V → List (Interval P × V) →
    Interval P → List (Interval P × V)
  | .nil, list, _ => list
  | .node _ niv mr nv l r, list, iv =>
    if mr ≤ iv.Left then list
    else
      let list1 :=
        if iv.Left < niv.Right then
          let list0 := nodesOverlappingIntervalAux l list iv
          if niv.Left < iv.Right then list0 ++ [(niv, nv)] else list0
        else list
      nodesOverlappingIntervalAux r list1 iv

/-- NodesOverlappingInterval (tree.go). -/
def Tr.NodesOverlappingInterval (t : Tr P V) (iv : Interval P) :
    Except String (List (Interval P × V)) :=
  if iv.empty then .error "empty interval"
  else .ok (nodesOverlappingIntervalAux t.root [] iv)

/-- The ascent loop of Node.Next (point.go): climb while the current node is a
right child; the first ancestor reached from its left child is the successor. -/
def ascendNext : List (Entry P V) → Option (Interval P × V)
  | [] => none
  | e :: rest => if e.sLeft then some (e.iv, e.v) else ascendNext rest

/-- The descent loop of Node.Next: leftmost node of a subtree. -/
def leftmostN : RBTree P V → Option (Interval P × V)
  | .nil => none
  | .node _ niv _ nv l _ =>
    match leftmostN l with
    | none => some (niv, nv)
    | some x => some x

/-- Node.Next (point.go) for a node given by its children and ancestor path:
if the right child is present, its leftmost descendant, else the first
ancestor whose left subtree we are in. -/
def nextZ (r : RBTree P V) (path : List (Entry P V)) : Option (Interval P × V) :=
  match r with
  | .nil => ascendNext path
  | _ => leftmostN r

/-- The ascent loop of Node.Previous (point.go). -/
def ascendPrev : List (Entry P V) → Option (Interval P × V)
  | [] => none
  | e :: rest => if e.sLeft then ascendPrev rest else some (e.iv, e.v)

/-- The descent loop of Node.Previous: rightmost node of a subtree. -/
def rightmostN : RBTree P V → Option (Interval P × V)
  | .nil => none
  | .node _ niv _ nv _ r =>
    match rightmostN r with
    | none => some (niv, nv)
    | some x => some x

/-- Node.Previous (point.go), the mirror of Next. -/
def prevZ (l : RBTree P V) (path : List (Entry P V)) : Option (Interval P × V) :=
  match l with
  | .nil => ascendPrev path
  | _ => rightmostN l

/-- The descent of DeleteNode's two-children case (tree.go): path (within the
left subtree) to its rightmost node, together with that node's positional
colour, payload and left child.  The rightmost node has no right child. -/
def splitRightmost : RBTree P V →
    Option (List (Entry P V) × Bool × Interval P × P × V × RBTree P V)
  | .nil => none
  | .node c iv mr v l .nil => some ([], c, iv, mr, v, l)
  | .node c iv mr v l (.node rc riv rmr rv rl rr) =>
    match splitRightmost (.node rc riv rmr rv rl rr) with
    | some (ctx, cc, civ, cmr, cv, cleft) =>
      some (ctx ++ [Entry.mk false c iv mr v l], cc, civ, cmr, cv, cleft)
    | none => none

/-- Recompute one ancestor's maxRight from its own right endpoint and its two
children, as in DeleteNode's fix-up loop (tree.go). -/
def fixEntry (f : RBTree P V) (e : Entry P V) : Entry P V :=
  let mr1 :=
    if e.sLeft then bumpT (bumpT e.iv.Right f) e.sib
    else bumpT (bumpT e.iv.Right e.sib) f
  Entry.mk e.sLeft e.red e.iv mr1 e.v e.sib

/-- DeleteNode's maxRight fix-up loop (tree.go): starting at the spliced
node's parent and moving to the root, recompute every cached maxRight. -/
def fixPath : RBTree P V → List (Entry P V) → List (Entry P V)
  | _, [] => []
  | f, e :: rest =>
    let e1 := fixEntry f e
    e1 :: fixPath (plug1 f e1) rest

/-- Cases 1-3 of rebalanceBlack (tree.go): the focus `n` (possibly nil) sits
under the parent described by `pe`; `k` is the recursive ascent taken by
case 1 when the parent is black. -/
def rbCases (n : RBTree P V) (pe : Entry P V) (rest : List (Entry P V))
    (k : RBTree P V → RBTree P V) : RBTree P V :=
  match pe.sib with
  | .nil => plugT n (pe :: rest)
  | .node sred siv smr sv sl sr =>
    if !sred && sl.blackN && sr.blackN then
      -- Case 1: sibling and niecews black: paint the sibling red; if the
      -- parent is red paint it black and stop, else ascend recursively
      let s1 : RBTree P V := .node true siv smr sv sl sr
      if pe.red then
        plugT (plug1 n (Entry.mk pe.sLeft false pe.iv pe.mr pe.v s1)) rest
      else
        k (plug1 n (Entry.mk pe.sLeft false pe.iv pe.mr pe.v s1))
    else
      -- Case 2: the inner niecew is red: paint the sibling red and the inner
      -- niecew black, and rotate the sibling away from n's side
      let s2 :=
        if pe.sLeft && sr.blackN then
          rotateRightT (.node true siv smr sv sl.setBlack sr)
        else if !pe.sLeft && sl.blackN then
          rotateLeftT (.node true siv smr sv sl sr.setBlack)
        else .node sred siv smr sv sl sr
      -- Case 3: the (re-fetched) sibling takes the parent's colour, the
      -- parent and the far niecew become black, and the parent is rotated
      -- toward n's side
      match s2 with
      | .nil => plugT n (pe :: rest)
      | .node _ u2iv u2mr u2v u2l u2r =>
        if pe.sLeft then
          let s3 : RBTree P V := .node pe.red u2iv u2mr u2v u2l u2r.setBlack
          plugT (rotateLeftT (.node false pe.iv pe.mr pe.v n s3)) rest
        else
          let s3 : RBTree P V := .node pe.red u2iv u2mr u2v u2l.setBlack u2r
          plugT (rotateRightT (.node false pe.iv pe.mr pe.v s3 n)) rest

/-- rebalanceBlack (tree.go): the focus `n` (possibly nil, one black short)
occupies a slot under the parent described by the head of the path.  A red
sibling is first rotated up to become the (black) grandparent, after which
the parent is red, so case 1 below stops at the parent and its recursive
branch is unreachable: the continuation passed in that branch merely rebuilds
the tree.  In the ordinary branch the continuation is the recursive ascent of
case 1. -/
def rebalanceBlack : RBTree P V → List (Entry P V) → RBTree P V
  | n, [] => n
  | n, pe :: rest =>
    match pe.sib with
    | .nil => plugT n (pe :: rest)
    | .node sred siv smr sv sl sr =>
      if sred then
        if pe.sLeft then
          match rotateLeftT (.node true pe.iv pe.mr pe.v n
              (.node false siv smr sv sl sr)) with
          | .node c1 iv1 mr1 v1 (.node c0 iv0 mr0 v0 _ sib0) r1 =>
            rbCases n (Entry.mk true c0 iv0 mr0 v0 sib0)
              (Entry.mk true c1 iv1 mr1 v1 r1 :: rest)
              (fun u => plugT u (Entry.mk true c1 iv1 mr1 v1 r1 :: rest))
          | u => plugT u rest
        else
          match rotateRightT (.node true pe.iv pe.mr pe.v
              (.node false siv smr sv sl sr) n) with
          | .node c1 iv1 mr1 v1 l1 (.node c0 iv0 mr0 v0 sib0 _) =>
            rbCases n (Entry.mk false c0 iv0 mr0 v0 sib0)
              (Entry.mk false c1 iv1 mr1 v1 l1 :: rest)
              (fun u => plugT u (Entry.mk false c1 iv1 mr1 v1 l1 :: rest))
          | u => plugT u rest
      else
        rbCases n pe rest (fun u => rebalanceBlack u rest)

/-- Phase B of DeleteNode (tree.go): splice the focus (whose positional
colour is `nred`) out in favour of its only child, recompute maxRight up the
whole spine, then repaint or rebalance. -/
def spliceFix (nred : Bool) (child : RBTree P V) (path : List (Entry P V)) :
    RBTree P V :=
  let fpath := fixPath child path
  if nred then plugT child fpath
  else if child.redN then plugT child.setBlack fpath
  else rebalanceBlack child fpath

/-- DeleteNode (tree.go) on a zipper: the focused node's parts and its
ancestor path.  With two children the node's payload is swapped positionally
with the rightmost node of the left subtree (positional colours stay, node
payloads travel), reducing to the at-most-one-child splice. -/
def deleteNodeZ (c : Bool) (iv : Interval P) (mr : P) (v : V)
    (l r : RBTree P V) (path : List (Entry P V)) : RBTree P V :=
  match l, r with
  | .node lc liv lmr lv ll lr, .node rc riv rmr rv rl rr =>
    match splitRightmost (.node lc liv lmr lv ll lr) with
    | some (ctx, cc, civ, cmr, cv, cleft) =>
      spliceFix cc cleft
        (ctx ++ Entry.mk true c civ cmr cv (.node rc riv rmr rv rl rr) :: path)
    | none => plugT (.node c iv mr v l r) path
  | _, _ =>
    let child := match l with | .nil => r | _ => l
    spliceFix c child path

/-- Locate the node of the tree addressed by a list of directions
(`true` = left), building its ancestor path; models handing a `*Node` of the
tree to DeleteNode. -/
def zipperAt : RBTree P V → List Bool → List (Entry P V) →
    Option ((Bool × Interval P × P × V × RBTree P V × RBTree P V) ×
      List (Entry P V))
  | .nil, _, _ => none
  | .node c iv mr v l r, [], path => some ((c, iv, mr, v, l, r), path)
  | .node c iv mr v l r, d :: ds, path =>
    if d then zipperAt l ds (Entry.mk true c iv mr v r :: path)
    else zipperAt r ds (Entry.mk false c iv mr v l :: path)

/-- DeleteNode (tree.go) at tree level, the node being given by directions
from the root; the length is decremented as in Go. -/
def Tr.DeleteNodeAt (t : Tr P V) (pos : List Bool) : Tr P V :=
  match zipperAt t.root pos [] with
  | some ((c, iv, mr, v, l, r), path) =>
    ⟨deleteNodeZ c iv mr v l r path, t.length - 1⟩
  | none => t

/-- GetNode's descent (tree.go) rebuilt as a zipper, as used by Delete, which
retrieves the node and hands it to DeleteNode. -/
def findZ : RBTree P V → List (Entry P V) → Interval P →
    Option ((Bool × Interval P × P × V × RBTree P V × RBTree P V) ×
      List (Entry P V))
  | .nil, _, _ => none
  | .node c niv mr nv l r, path, iv =>
    if iv.Less niv then findZ l (Entry.mk true c niv mr nv r :: path) iv
    else if niv.Less iv then findZ r (Entry.mk false c niv mr nv l :: path) iv
    else some ((c, niv, mr, nv, l, r), path)

/-- Delete (tree.go): reject an empty interval, look the node up, and delete
it, returning its payload. -/
def Tr.Delete (t : Tr P V) (interval : Interval P) :
    Except String (Option V × Bool × Tr P V) :=
  if interval.empty then .error "empty interval"
  else match findZ t.root [] interval with
    | none => .ok (none, false, t)
    | some ((c, niv, mr, nv, l, r), path) =>
      .ok (some nv, true, ⟨deleteNodeZ c niv mr nv l r path, t.length - 1⟩)

/-- A mutating operation on the tree: ReplaceOrInsert, Delete, or DeleteNode
of the node at a given position.  Rejected calls (empty interval, absent
node) leave the tree unchanged. -/
inductive Op (P V : Type) where
  | ins (iv : Interval P) (v : V)
  | del (iv : Interval P)
  | delNode (pos : List Bool)

/-- Apply one mutating operation. -/
def applyOp (t : Tr P V) : Op P V → Tr P V
  | .ins iv v =>
    match t.ReplaceOrInsert iv v with
    | .ok (_, _, t1) => t1
    | .error _ => t
  | .del iv =>
    match t.Delete iv with
    | .ok (_, _, t1) => t1
    | .error _ => t
  | .delNode pos => t.DeleteNodeAt pos

/-- The states reachable from the empty tree by ReplaceOrInsert, Delete, and
DeleteNode operations. -/
def reach (t : Tr P V) : Prop :=
  ∃ ops : List (Op P V), t = ops.foldl applyOp emptyTr

/-- In-order listing of the tree's bindings. -/
def inorder : RBTree P V → List (Interval P × V)
  | .nil => []
  | .node _ iv _ v l r => inorder l ++ (iv, v) :: inorder r

/-- In-order listing of the stored intervals. -/
def keys (t : RBTree P V) : List (Interval P) := (inorder t).map Prod.fst

/-- The bindings contributed by one ancestor entry to the left of the focus. -/
def entL (e : Entry P V) : List (Interval P × V) :=
  if e.sLeft then [] else inorder e.sib ++ [(e.iv, e.v)]

/-- The bindings contributed by one ancestor entry to the right of the focus. -/
def entR (e : Entry P V) : List (Interval P × V) :=
  if e.sLeft then (e.iv, e.v) :: inorder e.sib else []

/-- All bindings to the left of the focused subtree in the rebuilt tree. -/
def ctxL : List (Entry P V) → List (Interval P × V)
  | [] => []
  | e :: rest => ctxL rest ++ entL e

/-- All bindings to the right of the focused subtree in the rebuilt tree. -/
def ctxR : List (Entry P V) → List (Interval P × V)
  | [] => []
  | e :: rest => entR e ++ ctxR rest

/-- Invariant I1: the in-order traversal is strictly increasing under the
interval order. -/
def sortedKeys (t : RBTree P V) : Prop := (keys t).Pairwise Interval.Less

instance (t : RBTree P V) : Decidable (sortedKeys t) :=
  inferInstanceAs (Decidable (List.Pairwise _ _))

/-- Invariant I3, local form: every node's cached maxRight equals its own
right endpoint folded with the children's cached values (the form checked by
the repository's invariant test). -/
def maxOkB : RBTree P V → Bool
  | .nil => true
  | .node _ iv mr _ l r =>
    decide (mr = bumpT (bumpT iv.Right l) r) && maxOkB l && maxOkB r

/-- Fold an optional subtree maximum into an accumulator. -/
def bumpO (acc : P) : Option P → P
  | none => acc
  | some x => bump acc x

/-- The true maximum right endpoint over a subtree (none for the empty
subtree). -/
def tmaxO : RBTree P V → Option P
  | .nil => none
  | .node _ iv _ _ l r => some (bumpO (bumpO iv.Right (tmaxO l)) (tmaxO r))

/-- Invariant I3, global form: every node's cached maxRight equals the
maximum right endpoint over its whole subtree. -/
def maxGlobalB : RBTree P V → Bool
  | .nil => true
  | .node _ iv mr _ l r =>
    decide (mr = bumpO (bumpO iv.Right (tmaxO l)) (tmaxO r)) &&
      maxGlobalB l && maxGlobalB r

/-- Invariant I2, first part: no red node has a red child. -/
def noRedRed : RBTree P V → Bool
  | .nil => true
  | .node c _ _ _ l r => (!c || (l.blackN && r.blackN)) && noRedRed l && noRedRed r

/-- Invariant I2, second part: the number of black nodes on a path from the
root to an absent descendant, provided it is the same on every path. -/
def bhOk : RBTree P V → Option Nat
  | .nil => some 0
  | .node c _ _ _ l r =>
    match bhOk l, bhOk r with
    | some a, some b => if a = b then some (a + (if c then 0 else 1)) else none
    | _, _ => none

/-- The red-black balance invariant, indexed by root colour and black height
(nil is black of height 0; a red root needs black children). -/
inductive Bal : RBTree P V → Bool → Nat → Prop where
  | nil : Bal .nil false 0
  | red : Bal l false n → Bal r false n →
      Bal (.node true iv mr v l r) true n
  | black : Bal l c1 n → Bal r c2 n →
      Bal (.node false iv mr v l r) false (n + 1)

/-- The balance invariant of an ancestor path: `PathBal path c0 n0 c n` means
that plugging a `(c, n)`-balanced subtree into the path yields a
`(c0, n0)`-balanced tree.  A red parent demands a black focus; a black parent
accepts either colour. -/
inductive PathBal : List (Entry P V) → Bool → Nat → Bool → Nat → Prop where
  | pnil : PathBal [] c0 n0 c0 n0
  | pred : e.red = true → Bal e.sib false n → PathBal rest c0 n0 true n →
      PathBal (e :: rest) c0 n0 false n
  | pblack : e.red = false → Bal e.sib c2 n → PathBal rest c0 n0 false (n + 1) →
      PathBal (e :: rest) c0 n0 c n

/-- The tree with every payload erased: the full structural skeleton (colour,
key, cached maxRight, links) that a replacing insert must leave intact. -/
def skeleton : RBTree P V → RBTree P Unit
  | .nil => .nil
  | .node c iv mr _ l r => .node c iv mr () (skeleton l) (skeleton r)

/-- Overwrite just the payload of the node with the given key, touching
nothing else (the frame that claim C10 asserts for a replacing insert). -/
def setValAt : RBTree P V → Interval P → V → RBTree P V
  | .nil, _, _ => .nil
  | .node c niv mr nv l r, iv, v =>
    if niv.Less iv then .node c niv mr nv l (setValAt r iv v)
    else if iv.Less niv then .node c niv mr nv (setValAt l iv v) r
    else .node c niv mr v l r

/-- The structural invariants of the tree (I1-I3 plus the root-is-black part
of I2), as a single predicate on the root. -/
def wfRoot (t : RBTree P V) : Prop :=
  sortedKeys t ∧ maxOkB t = true ∧ noRedRed t = true ∧
    (bhOk t).isSome = true ∧ t.blackN = true

instance (t : RBTree P V) : Decidable (wfRoot t) :=
  inferInstanceAs (Decidable (_ ∧ _))

/-- Every interval-taking operation rejects the interval `iv` with the
programming-error signal (claim C5's conclusion, bundled). -/
def rejectsEmpty (t : Tr P V) (iv : Interval P) (v : V) : Prop :=
  t.ReplaceOrInsert iv v = .error "empty interval" ∧
  t.Get iv = .error "empty interval" ∧
  t.GetNode iv = .error "empty interval" ∧
  t.GetLess iv = .error "empty interval" ∧
  t.GetLessEqual iv = .error "empty interval" ∧
  t.GetGreater iv = .error "empty interval" ∧
  t.GetGreaterEqual iv = .error "empty interval" ∧
  t.Delete iv = .error "empty interval" ∧
  t.NodesContainingInterval iv = .error "empty interval" ∧
  t.NodesContainedInInterval iv = .error "empty interval" ∧
  t.NodesOverlappingInterval iv = .error "empty interval"

/-- Every operation on the empty tree returns its absent result (claim C9's
conclusion, bundled). -/
def emptyTreeAbsent (V : Type) (iv : Interval P) (p : P) : Prop :=
  (emptyTr : Tr P V).Get iv = .ok (none, false) ∧
  (emptyTr : Tr P V).Delete iv = .ok (none, false, emptyTr) ∧
  (emptyTr : Tr P V).GetNode iv = .ok none ∧
  Tr.GetMin (emptyTr : Tr P V) = none ∧
  Tr.GetMax (emptyTr : Tr P V) = none ∧
  (emptyTr : Tr P V).GetLess iv = .ok none ∧
  (emptyTr : Tr P V).GetLessEqual iv = .ok none ∧
  (emptyTr : Tr P V).GetGreater iv = .ok none ∧
  (emptyTr : Tr P V).GetGreaterEqual iv = .ok none ∧
  (emptyTr : Tr P V).NodesContainingPoint p = [] ∧
  (emptyTr : Tr P V).NodesContainingInterval iv = .ok [] ∧
  (emptyTr : Tr P V).NodesContainedInInterval iv = .ok [] ∧
  (emptyTr : Tr P V).NodesOverlappingInterval iv = .ok [] ∧
  Tr.Len (emptyTr : Tr P V) = 0

/-- The tree reached from the empty tree by inserting `[10,11) ↦ 0` and then
`[0,100) ↦ 1`: the root `[10,11)` with a red left child `[0,100)`, on which
the overlapping-interval query misses the left child. -/
def overlapBugTree : Tr Int Nat :=
  [Op.ins (Interval.mk 10 11) 0, Op.ins (Interval.mk 0 100) 1].foldl applyOp
    emptyTr

end ITree

namespace ITree

variable {P : Type} [LinearOrder P] {V : Type}

/-- Claim C5: for every tree state and every empty interval, each operation
that accepts an interval parameter rejects it with the programming-error
signal. -/
theorem claimC5_rejectsEmptyInterval (t : Tr P V) (iv : Interval P) (v : V)
    (h : iv.empty) : rejectsEmpty t iv v := by
  refine ⟨?_, ?_, ?_, ?_, ?_, ?_, ?_, ?_, ?_, ?_, ?_⟩ <;>
    simp [Tr.ReplaceOrInsert, Tr.Get, Tr.GetNode, Tr.GetLess, Tr.GetLessEqual,
      Tr.GetGreater, Tr.GetGreaterEqual, Tr.Delete, Tr.NodesContainingInterval,
      Tr.NodesContainedInInterval, Tr.NodesOverlappingInterval, h]

/-- Witness for claim C5 at a concrete empty interval. -/
theorem claimC5_witness :
    (Interval.mk (0 : Int) 0).empty ∧
      rejectsEmpty (emptyTr : Tr Int Nat) (Interval.mk 0 0) 0 :=
  ⟨by decide, claimC5_rejectsEmptyInterval emptyTr (Interval.mk 0 0) 0 (by decide)⟩

/-- Claim C9: on the empty tree, every operation returns its absent result
(for a non-empty query interval; empty intervals are rejected per C5). -/
theorem claimC9_emptyTreeAbsent (V : Type) (iv : Interval P) (p : P)
    (h : ¬ iv.empty) : emptyTreeAbsent V iv p := by
  refine ⟨?_, ?_, ?_, ?_, ?_, ?_, ?_, ?_, ?_, ?_, ?_, ?_, ?_, ?_⟩ <;>
    simp [Tr.Get, Tr.Delete, Tr.GetNode, Tr.GetMin, Tr.GetMax, Tr.GetLess,
      Tr.GetLessEqual, Tr.GetGreater, Tr.GetGreaterEqual,
      Tr.NodesContainingPoint, Tr.NodesContainingInterval,
      Tr.NodesContainedInInterval, Tr.NodesOverlappingInterval, Tr.Len,
      emptyTr, getNodeAux, findZ, getMinAux, getMaxAux, getLessAux,
      getLessEqualAux, getGreaterAux, getGreaterEqualAux,
      nodesContainingPointAux, nodesContainingIntervalAux,
      nodesContainedInIntervalAux, nodesOverlappingIntervalAux, h]

/-- Witness for claim C9 at a concrete non-empty interval and a point. -/
theorem claimC9_witness :
    ¬ (Interval.mk (0 : Int) 1).empty ∧
      emptyTreeAbsent Nat (Interval.mk (0 : Int) 1) 0 :=
  ⟨by decide, claimC9_emptyTreeAbsent Nat (Interval.mk 0 1) 0 (by decide)⟩


/-- Claim C2 (refuted by the code): on the invariant-satisfying tree reached
by inserting `[10,11)` and then `[0,100)`, the overlapping-interval query for
`[50,60)` returns no nodes although the stored interval `[0,100)` overlaps
`[50,60)`: the left subtree is visited only under the guard
`iv.Left < node.interval.Right` on the node's own right endpoint, which
wrongly prunes left descendants whose right endpoints are larger. -/
theorem claimC2_overlapQueryMissesNode :
    wfRoot overlapBugTree.root ∧
      (Interval.mk (0 : Int) 100, 1) ∈ inorder overlapBugTree.root ∧
      (Interval.mk (0 : Int) 100).Overlaps (Interval.mk 50 60) ∧
      overlapBugTree.NodesOverlappingInterval (Interval.mk 50 60) = .ok [] := by
  refine ⟨?_, ?_, ?_, ?_⟩
  · decide
  · decide
  · decide
  · rfl

end ITree

namespace ITree

variable {P : Type} [LinearOrder P] {V : Type}

theorem ivLess_irrefl (a : Interval P) : ¬ a.Less a := by
  simp [Interval.Less]

theorem ivLess_trans {a b c : Interval P} (h1 : a.Less b) (h2 : b.Less c) :
    a.Less c := by
  rcases h1 with h1 | ⟨e1, h1⟩ <;> rcases h2 with h2 | ⟨e2, h2⟩
  · exact Or.inl (h1.trans h2)
  · exact Or.inl (e2 ▸ h1)
  · exact Or.inl (e1 ▸ h2)
  · exact Or.inr ⟨e1.trans e2, h1.trans h2⟩

theorem ivLess_asymm {a b : Interval P} (h : a.Less b) : ¬ b.Less a := by
  intro h2
  exact ivLess_irrefl a (ivLess_trans h h2)

theorem ivEq_of_not_less {a b : Interval P} (h1 : ¬ a.Less b)
    (h2 : ¬ b.Less a) : a = b := by
  unfold Interval.Less at h1 h2
  push_neg at h1 h2
  obtain ⟨hl1, hr1⟩ := h1
  obtain ⟨hl2, hr2⟩ := h2
  have hl : a.Left = b.Left := le_antisymm hl2 hl1
  have hr : a.Right = b.Right := le_antisymm (hr2 hl.symm) (hr1 hl)
  cases a; cases b; simp_all

theorem ivEqual_iff {a b : Interval P} : a.Equal b ↔ a = b := by
  cases a; cases b; simp [Interval.Equal, Interval.mk.injEq]

theorem inorder_eq_nil_iff {t : RBTree P V} : inorder t = [] ↔ t = .nil := by
  cases t <;> simp [inorder]

theorem inorder_plug1 (t : RBTree P V) (e : Entry P V) :
    inorder (plug1 t e) = entL e ++ inorder t ++ entR e := by
  by_cases h : e.sLeft <;> simp [plug1, entL, entR, h, inorder]

theorem inorder_plugT (t : RBTree P V) (p : List (Entry P V)) :
    inorder (plugT t p) = ctxL p ++ inorder t ++ ctxR p := by
  induction p generalizing t with
  | nil => simp [plugT, ctxL, ctxR]
  | cons e rest ih =>
    simp [plugT, ctxL, ctxR, ih, inorder_plug1, List.append_assoc]

theorem leftmostN_eq (t : RBTree P V) : leftmostN t = (inorder t).head? := by
  induction t with
  | nil => simp [leftmostN, inorder]
  | node c iv mr v l r ihl ihr =>
    simp only [leftmostN, inorder, ihl, List.head?_append]
    cases h : (inorder l).head? <;> simp [Option.or]

theorem rightmostN_eq (t : RBTree P V) : rightmostN t = (inorder t).getLast? := by
  induction t with
  | nil => simp [rightmostN, inorder]
  | node c iv mr v l r ihl ihr =>
    simp only [rightmostN, inorder, ihr, List.getLast?_append,
      List.getLast?_cons]
    cases h : (inorder r).getLast? <;> simp [Option.or]

theorem ascendNext_eq (p : List (Entry P V)) : ascendNext p = (ctxR p).head? := by
  induction p with
  | nil => simp [ascendNext, ctxR]
  | cons e rest ih =>
    by_cases h : e.sLeft <;> simp [ascendNext, ctxR, entR, h, ih]

theorem ascendPrev_eq (p : List (Entry P V)) :
    ascendPrev p = (ctxL p).getLast? := by
  induction p with
  | nil => simp [ascendPrev, ctxL]
  | cons e rest ih =>
    by_cases h : e.sLeft <;>
      simp [ascendPrev, ctxL, entL, h, ih, List.getLast?_append]

theorem zipperAt_plug {t : RBTree P V} {pos : List Bool}
    {path p1 : List (Entry P V)} {c : Bool} {iv : Interval P} {mr : P} {v : V}
    {l r : RBTree P V}
    (h : zipperAt t pos path = some ((c, iv, mr, v, l, r), p1)) :
    plugT (.node c iv mr v l r) p1 = plugT t path := by
  induction t generalizing pos path with
  | nil => simp [zipperAt] at h
  | node c0 iv0 mr0 v0 l0 r0 ihl ihr =>
    cases pos with
    | nil =>
      simp only [zipperAt, Option.some.injEq, Prod.mk.injEq] at h
      obtain ⟨⟨h1, h2, h3, h4, h5, h6⟩, h7⟩ := h
      subst h1; subst h2; subst h3; subst h4; subst h5; subst h6; subst h7
      rfl
    | cons d ds =>
      by_cases hd : d
      · rw [hd] at h
        simp only [zipperAt, if_pos] at h
        rw [ihl h]
        simp [plugT, plug1]
      · simp only [Bool.not_eq_true] at hd
        rw [hd] at h
        simp only [zipperAt, if_neg] at h
        rw [ihr h]
        simp [plugT, plug1]

end ITree

namespace ITree

variable {P : Type} [LinearOrder P] {V : Type}

theorem getLast?_append_right {A B : List (Interval P × V)} (h : B ≠ []) :
    (A ++ B).getLast? = B.getLast? := by
  rw [List.getLast?_append]
  cases hb : B.getLast? with
  | none => exact absurd (List.getLast?_eq_none_iff.mp hb) h
  | some x => simp [Option.or]

/-- Claim C8: for every node of a tree whose in-order key sequence is sorted,
Next returns the binding with the smallest key greater than the node's key
(none at the maximum) and Previous the binding with the largest key smaller
(none at the minimum): the successor and predecessor of the in-order
enumeration. -/
theorem claimC8_nextPrevSuccessor (t : Tr P V) (pos : List Bool) (c : Bool)
    (iv : Interval P) (mr : P) (v : V) (l r : RBTree P V)
    (path : List (Entry P V))
    (hz : zipperAt t.root pos [] = some ((c, iv, mr, v, l, r), path))
    (hs : sortedKeys t.root) :
    nextZ r path =
      ((inorder t.root).filter (fun e => decide (iv.Less e.1))).head? ∧
    prevZ l path =
      ((inorder t.root).filter (fun e => decide (e.1.Less iv))).getLast? := by
  have hp : plugT (.node c iv mr v l r) path = t.root := zipperAt_plug hz
  have hIn : inorder t.root =
      (ctxL path ++ inorder l) ++ (iv, v) :: (inorder r ++ ctxR path) := by
    rw [← hp, inorder_plugT]
    simp [inorder, List.append_assoc]
  have hpw : ((ctxL path ++ inorder l) ++ (iv, v) ::
      (inorder r ++ ctxR path)).Pairwise (fun a b => a.1.Less b.1) := by
    have := hs
    unfold sortedKeys keys at this
    rw [List.pairwise_map] at this
    rwa [hIn] at this
  rw [List.pairwise_append] at hpw
  obtain ⟨hpwA, hpwB, hAB⟩ := hpw
  rw [List.pairwise_cons] at hpwB
  obtain ⟨hivB, _⟩ := hpwB
  have hAiv : ∀ a ∈ ctxL path ++ inorder l, a.1.Less iv := fun a ha =>
    hAB a ha (iv, v) (List.mem_cons_self _ _)
  constructor
  · -- Next
    have hfil : ((inorder t.root).filter (fun e => decide (iv.Less e.1))) =
        inorder r ++ ctxR path := by
      rw [hIn, List.filter_append, List.filter_cons]
      have h1 : List.filter (fun e => decide (iv.Less e.1))
          (ctxL path ++ inorder l) = [] := by
        rw [List.filter_eq_nil]
        intro a ha
        simpa using ivLess_asymm (hAiv a ha)
      have h2 : List.filter (fun e => decide (iv.Less e.1))
          (inorder r ++ ctxR path) = inorder r ++ ctxR path := by
        rw [List.filter_eq_self]
        intro a ha
        simpa using hivB a ha
      simp [h1, h2, ivLess_irrefl iv]
    rw [hfil]
    cases r with
    | nil => simp [nextZ, ascendNext_eq, inorder]
    | node rc riv rmr rv rl rr =>
      have hne : inorder (RBTree.node rc riv rmr rv rl rr) ≠ [] := by
        simp [inorder]
      rw [List.head?_append_of_ne_nil _ hne, ← leftmostN_eq]
      rfl
  · -- Previous
    have hfil : ((inorder t.root).filter (fun e => decide (e.1.Less iv))) =
        ctxL path ++ inorder l := by
      rw [hIn, List.filter_append, List.filter_cons]
      have h1 : List.filter (fun e => decide (e.1.Less iv))
          (ctxL path ++ inorder l) = ctxL path ++ inorder l := by
        rw [List.filter_eq_self]
        intro a ha
        simpa using hAiv a ha
      have h2 : List.filter (fun e => decide (e.1.Less iv))
          (inorder r ++ ctxR path) = [] := by
        rw [List.filter_eq_nil]
        intro a ha
        simpa using ivLess_asymm (hivB a ha)
      simp [h1, h2, ivLess_irrefl iv]
    rw [hfil]
    cases l with
    | nil => simp [prevZ, ascendPrev_eq, inorder]
    | node lc liv lmr lv ll lr =>
      have hne : inorder (RBTree.node lc liv lmr lv ll lr) ≠ [] := by
        simp [inorder]
      rw [getLast?_append_right hne, ← rightmostN_eq]
      rfl


/-- Witness for claim C8 on a concrete three-node tree, at its root. -/
theorem claimC8_witness :
    zipperAt (Tr.mk (P := Int) (V := Nat)
        (.node false (Interval.mk 1 2) 3 1
          (.node true (Interval.mk 0 1) 1 0 .nil .nil)
          (.node true (Interval.mk 2 3) 3 2 .nil .nil)) 3).root [] [] =
      some ((false, Interval.mk 1 2, 3, 1,
        RBTree.node true (Interval.mk 0 1) 1 0 .nil .nil,
        RBTree.node true (Interval.mk 2 3) 3 2 .nil .nil), []) ∧
    sortedKeys (Tr.mk (P := Int) (V := Nat)
        (.node false (Interval.mk 1 2) 3 1
          (.node true (Interval.mk 0 1) 1 0 .nil .nil)
          (.node true (Interval.mk 2 3) 3 2 .nil .nil)) 3).root ∧
    (nextZ (RBTree.node true (Interval.mk (2 : Int) 3) 3 (2 : Nat) .nil .nil) [] =
      ((inorder (Tr.mk (P := Int) (V := Nat)
        (.node false (Interval.mk 1 2) 3 1
          (.node true (Interval.mk 0 1) 1 0 .nil .nil)
          (.node true (Interval.mk 2 3) 3 2 .nil .nil)) 3).root).filter
            (fun e => decide ((Interval.mk 1 2).Less e.1))).head? ∧
    prevZ (RBTree.node true (Interval.mk (0 : Int) 1) 1 (0 : Nat) .nil .nil) [] =
      ((inorder (Tr.mk (P := Int) (V := Nat)
        (.node false (Interval.mk 1 2) 3 1
          (.node true (Interval.mk 0 1) 1 0 .nil .nil)
          (.node true (Interval.mk 2 3) 3 2 .nil .nil)) 3).root).filter
            (fun e => decide (e.1.Less (Interval.mk 1 2)))).getLast?) :=
  ⟨rfl, by decide,
    claimC8_nextPrevSuccessor _ [] false (Interval.mk 1 2) 3 1 _ _ [] rfl
      (by decide)⟩

end ITree

namespace ITree

variable {P : Type} [LinearOrder P] {V : Type}

theorem getLessAux_eq (t : RBTree P V) (cand : Option (Interval P × V))
    (iv : Interval P)
    (hs : (inorder t).Pairwise (fun a b => a.1.Less b.1)) :
    getLessAux t cand iv =
      ((inorder t).filter (fun e => decide (e.1.Less iv))).getLast?.or cand := by
  induction t generalizing cand with
  | nil => simp [getLessAux, inorder]
  | node c niv mr nv l r ihl ihr =>
    simp only [inorder, List.pairwise_append, List.pairwise_cons] at hs
    obtain ⟨hl, ⟨hR, hr⟩, hcross⟩ := hs
    simp only [inorder, List.filter_append, List.filter_cons]
    by_cases h : niv.Less iv
    · rw [if_pos (by simpa using h)]
      simp only [getLessAux, if_pos h, ihr (some (niv, nv)) hr]
      rw [List.getLast?_append, List.getLast?_cons]
      cases hfr : (List.filter (fun e => decide (e.1.Less iv)) (inorder r)).getLast? with
      | none => simp [Option.or]
      | some x => simp [Option.or]
    · rw [if_neg (by simpa using h)]
      have hrnil : List.filter (fun e => decide (e.1.Less iv)) (inorder r) = [] := by
        rw [List.filter_eq_nil]
        intro e he
        have h1 : niv.Less e.1 := hR e he
        simp only [decide_eq_true_eq]
        intro h2
        exact h (ivLess_trans h1 h2)
      simp only [getLessAux, if_neg h, ihl cand hl, hrnil, List.append_nil]

theorem getLessEqualAux_eq (t : RBTree P V) (cand : Option (Interval P × V))
    (iv : Interval P)
    (hs : (inorder t).Pairwise (fun a b => a.1.Less b.1)) :
    getLessEqualAux t cand iv =
      ((inorder t).filter (fun e => !decide (iv.Less e.1))).getLast?.or cand := by
  induction t generalizing cand with
  | nil => simp [getLessEqualAux, inorder]
  | node c niv mr nv l r ihl ihr =>
    simp only [inorder, List.pairwise_append, List.pairwise_cons] at hs
    obtain ⟨hl, ⟨hR, hr⟩, hcross⟩ := hs
    simp only [inorder, List.filter_append, List.filter_cons]
    by_cases h : iv.Less niv
    · rw [if_neg (by simpa using h)]
      have hrnil : List.filter (fun e => !decide (iv.Less e.1)) (inorder r) = [] := by
        rw [List.filter_eq_nil]
        intro e he
        have h1 : niv.Less e.1 := hR e he
        simp only [Bool.not_eq_true', decide_eq_false_iff_not, not_not]
        exact ivLess_trans h h1
      simp only [getLessEqualAux, if_pos h, ihl cand hl, hrnil, List.append_nil]
    · rw [if_pos (by simpa using h)]
      simp only [getLessEqualAux, if_neg h, ihr (some (niv, nv)) hr]
      rw [List.getLast?_append, List.getLast?_cons]
      cases hfr : (List.filter (fun e => !decide (iv.Less e.1)) (inorder r)).getLast? with
      | none => simp [Option.or]
      | some x => simp [Option.or]

/-- Claim C7: on a tree with sorted in-order keys and a non-empty query
interval, GetLess and GetLessEqual agree exactly when no node's key is equal
to the query interval. -/
theorem claimC7_lessVsLessEqual (t : Tr P V) (iv : Interval P)
    (hs : sortedKeys t.root) (he : ¬ iv.empty) :
    t.GetLess iv = t.GetLessEqual iv ↔ ∀ k ∈ keys t.root, ¬ k.Equal iv := by
  have hpw : (inorder t.root).Pairwise (fun a b => a.1.Less b.1) := by
    have := hs
    unfold sortedKeys keys at this
    rwa [List.pairwise_map] at this
  have hL : t.GetLess iv = .ok (getLessAux t.root none iv) := by
    simp [Tr.GetLess, he]
  have hE : t.GetLessEqual iv = .ok (getLessEqualAux t.root none iv) := by
    simp [Tr.GetLessEqual, he]
  rw [hL, hE, getLessAux_eq _ _ _ hpw, getLessEqualAux_eq _ _ _ hpw]
  simp only [Option.or_none, Except.ok.injEq]
  constructor
  · -- agreement implies no equal key
    intro hEq k hk hkiv
    rw [ivEqual_iff] at hkiv
    obtain ⟨e, heIn, heFst⟩ := List.mem_map.mp (show iv ∈ (inorder t.root).map Prod.fst from hkiv ▸ hk)
    obtain ⟨X, Y, hXY⟩ := List.append_of_mem heIn
    have hpw2 := hpw
    rw [hXY, List.pairwise_append, List.pairwise_cons] at hpw2
    obtain ⟨_, ⟨hY, _⟩, _⟩ := hpw2
    have hEfil : (inorder t.root).filter (fun x => !decide (iv.Less x.1)) =
        (X.filter (fun x => !decide (iv.Less x.1))) ++ [e] := by
      rw [hXY, List.filter_append, List.filter_cons]
      have hYnil : Y.filter (fun x => !decide (iv.Less x.1)) = [] := by
        rw [List.filter_eq_nil]
        intro y heY
        have := hY y heY
        rw [heFst] at this
        simpa using this
      simp [hYnil, heFst, ivLess_irrefl]
    rw [hEfil, List.getLast?_concat] at hEq
    have hmem := List.mem_of_getLast?_eq_some hEq
    rw [List.mem_filter] at hmem
    have h2 := hmem.2
    rw [heFst] at h2
    simp [ivLess_irrefl] at h2
  · -- no equal key implies the filters agree
    intro hno
    have : (inorder t.root).filter (fun e => decide (e.1.Less iv)) =
        (inorder t.root).filter (fun e => !decide (iv.Less e.1)) := by
      apply List.filter_congr
      intro e heIn
      have hne : e.1 ≠ iv := by
        intro hcon
        exact hno e.1 (List.mem_map_of_mem Prod.fst heIn) (by rw [hcon, ivEqual_iff])
      by_cases h1 : e.1.Less iv
      · simp [h1, ivLess_asymm h1]
      · have h2 : iv.Less e.1 := by
          rcases (by decide : True) with _
          by_contra h2
          exact hne (ivEq_of_not_less h1 h2)
        simp [h1, h2]
    rw [this]


/-- Witness for claim C7 on a concrete three-node tree with query key `[1,2)`. -/
theorem claimC7_witness :
    sortedKeys (Tr.mk (P := Int) (V := Nat)
        (.node false (Interval.mk 1 2) 3 1
          (.node true (Interval.mk 0 1) 1 0 .nil .nil)
          (.node true (Interval.mk 2 3) 3 2 .nil .nil)) 3).root ∧
    ¬ (Interval.mk (1 : Int) 2).empty ∧
    ((Tr.mk (P := Int) (V := Nat)
        (.node false (Interval.mk 1 2) 3 1
          (.node true (Interval.mk 0 1) 1 0 .nil .nil)
          (.node true (Interval.mk 2 3) 3 2 .nil .nil)) 3).GetLess
            (Interval.mk 1 2) =
      (Tr.mk (P := Int) (V := Nat)
        (.node false (Interval.mk 1 2) 3 1
          (.node true (Interval.mk 0 1) 1 0 .nil .nil)
          (.node true (Interval.mk 2 3) 3 2 .nil .nil)) 3).GetLessEqual
            (Interval.mk 1 2) ↔
      ∀ k ∈ keys (Tr.mk (P := Int) (V := Nat)
        (.node false (Interval.mk 1 2) 3 1
          (.node true (Interval.mk 0 1) 1 0 .nil .nil)
          (.node true (Interval.mk 2 3) 3 2 .nil .nil)) 3).root,
        ¬ k.Equal (Interval.mk 1 2)) :=
  ⟨by decide, by decide,
    claimC7_lessVsLessEqual _ (Interval.mk 1 2) (by decide) (by decide)⟩

end ITree
